import Mathlib

/-
Shallow embedding of the ray-tracer core (alex-pricinoc/ray-tracer).

Scalars: the source uses `pub type F = f64`. We embed F as the exact
rationals. Every concrete scene evaluated in this file only exercises
square roots of perfect squares, where the model `fsqrt` agrees with the
real square root exactly; universal theorems below do not depend on the
values `fsqrt` returns elsewhere.

Sources embedded: src/tuple.rs, src/canvas.rs (Color), src/matrix.rs,
src/ray.rs, src/material.rs, src/pattern.rs, src/shapes.rs,
src/shapes/sphere.rs, src/shapes/plane.rs, src/intersection.rs,
src/world.rs. (The files src/shape.rs and src/sphere.rs are dead code:
lib.rs declares only `mod shapes`.)
-/

namespace RT

abbrev F := ℚ

/-- EPSILON from lib.rs: `const EPSILON: F = 1e-5`. -/
def EPSILON : F := 1 / 100000

/-- Model of f64::sqrt. Exact whenever the argument is the square of a
rational; on negative input the source would yield NaN, which no claim
exercises, and we return 0 there. -/
def fsqrt (q : F) : F :=
  if q < 0 then 0 else (Nat.sqrt q.num.toNat : F) / (Nat.sqrt q.den : F)

/-- Tuple from tuple.rs: affine 4-vector, w = 1 for points, 0 for vectors. -/
structure Tuple where
  x : F
  y : F
  z : F
  w : F
  deriving DecidableEq, Repr

/-- tuple.rs `point` constructor. -/
def pt3 (x y z : F) : Tuple := ⟨x, y, z, 1⟩

/-- tuple.rs `vector` constructor. -/
def vec3 (x y z : F) : Tuple := ⟨x, y, z, 0⟩

instance : Add Tuple := ⟨fun a b => ⟨a.x + b.x, a.y + b.y, a.z + b.z, a.w + b.w⟩⟩

instance : Sub Tuple := ⟨fun a b => ⟨a.x - b.x, a.y - b.y, a.z - b.z, a.w - b.w⟩⟩

instance : Neg Tuple := ⟨fun a => ⟨-a.x, -a.y, -a.z, -a.w⟩⟩

instance : HMul Tuple F Tuple := ⟨fun a s => ⟨a.x * s, a.y * s, a.z * s, a.w * s⟩⟩

instance : HDiv Tuple F Tuple := ⟨fun a s => ⟨a.x / s, a.y / s, a.z / s, a.w / s⟩⟩

/-- tuple.rs `dot`. -/
def Tuple.dot (a b : Tuple) : F := a.x * b.x + a.y * b.y + a.z * b.z + a.w * b.w

/-- tuple.rs `magnitude` (powi(2) summed, then sqrt). -/
def Tuple.magnitude (a : Tuple) : F := fsqrt (a.x ^ 2 + a.y ^ 2 + a.z ^ 2 + a.w ^ 2)

/-- tuple.rs `normalize`. -/
def Tuple.normalize (a : Tuple) : Tuple := a / a.magnitude

/-- tuple.rs `reflect`: `*self - normal * 2.0 * self.dot(normal)`. -/
def Tuple.reflect (a normal : Tuple) : Tuple := a - normal * (2 : F) * a.dot normal

/-- Color from canvas.rs. -/
structure Color where
  red : F
  green : F
  blue : F
  deriving DecidableEq, Repr

def BLACK : Color := ⟨0, 0, 0⟩

def WHITE : Color := ⟨1, 1, 1⟩

instance : Add Color := ⟨fun a b => ⟨a.red + b.red, a.green + b.green, a.blue + b.blue⟩⟩

instance : Sub Color := ⟨fun a b => ⟨a.red - b.red, a.green - b.green, a.blue - b.blue⟩⟩

instance : HMul Color F Color := ⟨fun a s => ⟨a.red * s, a.green * s, a.blue * s⟩⟩

instance : Mul Color := ⟨fun a b => ⟨a.red * b.red, a.green * b.green, a.blue * b.blue⟩⟩

/-- canvas.rs `Sum for Color`: fold from BLACK by addition. -/
def sumColors (l : List Color) : Color := l.foldl (· + ·) BLACK

/- 4x4 / 3x3 / 2x2 matrices from matrix.rs, as functions on Fin indices. -/

abbrev Matrix4 := Fin 4 → Fin 4 → F

abbrev Matrix3 := Fin 3 → Fin 3 → F

abbrev Matrix2 := Fin 2 → Fin 2 → F

instance : DecidableEq Matrix4 := inferInstanceAs (DecidableEq (Fin 4 → Fin 4 → F))

/-- matrix.rs `Mul<Matrix<D>>`, unrolled inner loop for D = 4. -/
def mul4 (a b : Matrix4) : Matrix4 := fun r c =>
  a r 0 * b 0 c + a r 1 * b 1 c + a r 2 * b 2 c + a r 3 * b 3 c

/-- matrix.rs `Mul<Tuple>`, unrolled for D = 4. -/
def mulT (m : Matrix4) (t : Tuple) : Tuple :=
  ⟨m 0 0 * t.x + m 0 1 * t.y + m 0 2 * t.z + m 0 3 * t.w,
   m 1 0 * t.x + m 1 1 * t.y + m 1 2 * t.z + m 1 3 * t.w,
   m 2 0 * t.x + m 2 1 * t.y + m 2 2 * t.z + m 2 3 * t.w,
   m 3 0 * t.x + m 3 1 * t.y + m 3 2 * t.z + m 3 3 * t.w⟩

/-- matrix.rs `transpose`. -/
def transpose4 (m : Matrix4) : Matrix4 := fun r c => m c r

def identity4 : Matrix4 :=
  ![![1, 0, 0, 0], ![0, 1, 0, 0], ![0, 0, 1, 0], ![0, 0, 0, 1]]

/-- matrix.rs `translation`. -/
def translation4 (x y z : F) : Matrix4 :=
  ![![1, 0, 0, x], ![0, 1, 0, y], ![0, 0, 1, z], ![0, 0, 0, 1]]

/-- matrix.rs `scaling`. -/
def scaling4 (x y z : F) : Matrix4 :=
  ![![x, 0, 0, 0], ![0, y, 0, 0], ![0, 0, z, 0], ![0, 0, 0, 1]]

/-- Index arithmetic of `submatrix`: `if r >= row { r + 1 } else { r }`. -/
def skip4 (p : Fin 4) (r : Fin 3) : Fin 4 :=
  if r.val ≥ p.val then ⟨r.val + 1, by have := r.isLt; omega⟩
  else ⟨r.val, by have := r.isLt; omega⟩

def skip3 (p : Fin 3) (r : Fin 2) : Fin 3 :=
  if r.val ≥ p.val then ⟨r.val + 1, by have := r.isLt; omega⟩
  else ⟨r.val, by have := r.isLt; omega⟩

/-- matrix.rs `Matrix<2>::determinant`. -/
def det2 (m : Matrix2) : F := m 0 0 * m 1 1 - m 0 1 * m 1 0

/-- matrix.rs `Matrix<3>::submatrix`. -/
def submatrix3 (m : Matrix3) (row col : Fin 3) : Matrix2 :=
  fun r c => m (skip3 row r) (skip3 col c)

/-- matrix.rs `Matrix<3>::minor`. -/
def minor3 (m : Matrix3) (row col : Fin 3) : F := det2 (submatrix3 m row col)

/-- matrix.rs `Matrix<3>::cofactor`. -/
def cofactor3 (m : Matrix3) (row col : Fin 3) : F :=
  if (row.val + col.val) % 2 = 0 then minor3 m row col else -minor3 m row col

/-- matrix.rs `Matrix<3>::determinant`, cofactor expansion along row 0. -/
def det3 (m : Matrix3) : F :=
  m 0 0 * cofactor3 m 0 0 + m 0 1 * cofactor3 m 0 1 + m 0 2 * cofactor3 m 0 2

/-- matrix.rs `Matrix<4>::submatrix`. -/
def submatrix4 (m : Matrix4) (row col : Fin 4) : Matrix3 :=
  fun r c => m (skip4 row r) (skip4 col c)

/-- matrix.rs `Matrix<4>::minor`. -/
def minor4 (m : Matrix4) (row col : Fin 4) : F := det3 (submatrix4 m row col)

/-- matrix.rs `Matrix<4>::cofactor`. -/
def cofactor4 (m : Matrix4) (row col : Fin 4) : F :=
  if (row.val + col.val) % 2 = 0 then minor4 m row col else -minor4 m row col

/-- matrix.rs `Matrix<4>::determinant`, cofactor expansion along row 0. -/
def det4 (m : Matrix4) : F :=
  m 0 0 * cofactor4 m 0 0 + m 0 1 * cofactor4 m 0 1 +
  m 0 2 * cofactor4 m 0 2 + m 0 3 * cofactor4 m 0 3

/-- matrix.rs `Matrix<4>::is_invertible`. -/
def isInvertible4 (m : Matrix4) : Bool := decide (det4 m ≠ 0)

/-- matrix.rs `Matrix<4>::inverse`, with the `assert!(self.is_invertible())`
panic modelled as `none`. On success the entry at row r, column c is the
cofactor of (c, r) divided by the determinant (the source writes
`matrix[col][row] = self.cofactor(row, col) / det`). -/
def inverse4? (m : Matrix4) : Option Matrix4 :=
  if isInvertible4 m then some (fun r c => cofactor4 m c r / det4 m) else none

/-- Total version used inside the rendering pipeline, where the source
asserts invertibility; agrees with the source wherever the source does
not panic. -/
def inverse4 (m : Matrix4) : Matrix4 := (inverse4? m).getD (fun _ _ => 0)

/-- Ray from ray.rs. The constructor assertion (origin is a point,
direction is a vector) holds at every construction site modelled here. -/
structure Ray where
  origin : Tuple
  direction : Tuple
  deriving DecidableEq, Repr

/-- ray.rs `Ray::position`. -/
def Ray.position (r : Ray) (t : F) : Tuple := r.origin + r.direction * t

/-- ray.rs `Ray::transform`. -/
def Ray.transform (r : Ray) (m : Matrix4) : Ray := ⟨mulT m r.origin, mulT m r.direction⟩

/-- PointLight from ray.rs. -/
structure PointLight where
  position : Tuple
  intensity : Color
  deriving DecidableEq, Repr

/-- pattern.rs `PatternDesign`. -/
inductive PatternDesign where
  | stripe (a b : Color)
  | gradient (a b : Color)
  | ring (a b : Color)
  | checkers (a b : Color)
  | test
  deriving DecidableEq, Repr

/-- pattern.rs `Pattern`. -/
structure Pattern where
  design : PatternDesign
  transform : Matrix4

instance : DecidableEq Pattern :=
  fun a b =>
    decidable_of_iff (a.design = b.design ∧ a.transform = b.transform)
      (by cases a; cases b; simp)

/-- Model of the f64 to isize cast in pattern.rs (truncation toward zero;
every use site below applies it to a non-negative value, where it agrees
with the floor). -/
def truncZ (q : F) : ℤ := if q < 0 then -⌊-q⌋ else ⌊q⌋

/-- pattern.rs `Pattern::color_at`. Rust `%` on isize is truncated rem,
modelled by Int.tmod. -/
def Pattern.colorAt (p : Pattern) (point : Tuple) : Color :=
  match p.design with
  | .stripe a b => if Int.tmod ⌊point.x⌋ 2 = 0 then a else b
  | .gradient a b =>
      let distance := b - a
      let fraction := point.x - (⌊point.x⌋ : F)
      a + distance * fraction
  | .ring a b =>
      let x2 := point.x * point.x
      let z2 := point.z * point.z
      if Int.tmod (truncZ (fsqrt (x2 + z2))) 2 = 0 then a else b
  | .checkers a b =>
      if Int.tmod (⌊point.x⌋ + ⌊point.y⌋ + ⌊point.z⌋) 2 = 0 then a else b
  | .test => ⟨point.x, point.y, point.z⟩

/-- material.rs `Material`. -/
structure Material where
  color : Color
  ambient : F
  diffuse : F
  specular : F
  shininess : F
  reflective : F
  transparency : F
  refractive_index : F
  pattern : Option Pattern
  deriving DecidableEq

/-- material.rs `Default for Material`. -/
def defaultMaterial : Material :=
  { color := WHITE, ambient := 1/10, diffuse := 9/10, specular := 9/10,
    shininess := 200, reflective := 0, transparency := 0,
    refractive_index := 1, pattern := none }

/-- The closed set of shape kinds exercised by the claims (the two local
hooks below transcribe shapes/sphere.rs and shapes/plane.rs; the world
and intersection logic under verification is kind-generic). -/
inductive ShapeKind where
  | sphere
  | plane
  deriving DecidableEq, Repr

/-- shapes.rs `Props`. Its derived PartialEq compares the material and the
transform entrywise and exactly. -/
structure Props where
  material : Material
  transform : Matrix4
  deriving DecidableEq

/-- shapes.rs `Default for Props`. -/
def defaultProps : Props := { material := defaultMaterial, transform := identity4 }

/-- A shape value: its concrete kind plus its Props. -/
structure Shape where
  kind : ShapeKind
  props : Props
  deriving DecidableEq

/-- shapes.rs `PartialEq for dyn Shape`: Props equality plus `shape_eq`
(same concrete type, i.e. same kind). -/
def shapeEq (a b : Shape) : Bool := a.props == b.props && a.kind == b.kind

/-- intersection.rs `Intersection`: a ray parameter t and the hit shape. -/
structure Inter where
  t : F
  object : Shape
  deriving DecidableEq

/-- Derived PartialEq of Intersection: t equal and objects equal in the
sense of `PartialEq for dyn Shape`. -/
def interEq (a b : Inter) : Bool := a.t == b.t && shapeEq a.object b.object

/-- sphere.rs quadratic coefficient a: `ray.direction.dot(ray.direction)`. -/
def sphA (r : Ray) : F := r.direction.dot r.direction

/-- sphere.rs quadratic coefficient b: `2.0 * ray.direction.dot(sphere_to_ray)`. -/
def sphB (r : Ray) : F := 2 * r.direction.dot (r.origin - pt3 0 0 0)

/-- sphere.rs quadratic coefficient c: `sphere_to_ray.dot(sphere_to_ray) - 1.0`. -/
def sphC (r : Ray) : F := (r.origin - pt3 0 0 0).dot (r.origin - pt3 0 0 0) - 1

/-- sphere.rs `discriminant = b.powi(2) - 4.0 * a * c`. -/
def sphDisc (r : Ray) : F := sphB r ^ 2 - 4 * sphA r * sphC r

/-- The two local_intersect hooks (shapes/sphere.rs, shapes/plane.rs). -/
def Shape.localIntersect (s : Shape) (r : Ray) : List Inter :=
  match s.kind with
  | .sphere =>
      if sphDisc r < 0 then []
      else
        let t1 := (-sphB r - fsqrt (sphDisc r)) / (2 * sphA r)
        let t2 := (-sphB r + fsqrt (sphDisc r)) / (2 * sphA r)
        [⟨t1, s⟩, ⟨t2, s⟩]
  | .plane =>
      if |r.direction.y| < EPSILON then []
      else [⟨-r.origin.y / r.direction.y, s⟩]

/-- The two local_normal_at hooks. -/
def Shape.localNormalAt (s : Shape) (point : Tuple) : Tuple :=
  match s.kind with
  | .sphere => point - pt3 0 0 0
  | .plane => vec3 0 1 0

/-- shapes.rs default `intersect`: map the ray into object space through
the inverse transform, then delegate to local_intersect. -/
def Shape.intersect (s : Shape) (r : Ray) : List Inter :=
  s.localIntersect (r.transform (inverse4 s.props.transform))

/-- shapes.rs default `normal_at`. -/
def Shape.normalAt (s : Shape) (point : Tuple) : Tuple :=
  let localPoint := mulT (inverse4 s.props.transform) point
  let localNormal := s.localNormalAt localPoint
  let worldNormal := mulT (transpose4 (inverse4 s.props.transform)) localNormal
  let worldNormal := { worldNormal with w := 0 }
  worldNormal.normalize

/-- One step of Rust `min_by(Ord::cmp)` (with Ord on Intersection
comparing t): keep the accumulator unless the new element is strictly
smaller, so the first of equally minimal elements wins. -/
def minStep (acc : Option Inter) (i : Inter) : Option Inter :=
  match acc with
  | none => some i
  | some m => if i.t < m.t then some i else some m

/-- intersection.rs `Intersections::hit` inner fold: Rust `min_by` on t. -/
def rustMinBy (xs : List Inter) : Option Inter := xs.foldl minStep none

/-- intersection.rs `hit()`: filter `i.t >= 0.0`, then min_by on t. -/
def hit (xs : List Inter) : Option Inter :=
  rustMinBy (xs.filter (fun i => decide (0 ≤ i.t)))

/-- intersection.rs `Comps`. -/
structure Comps where
  t : F
  object : Shape
  point : Tuple
  over_point : Tuple
  under_point : Tuple
  eyev : Tuple
  normalv : Tuple
  inside : Bool
  reflectv : Tuple
  n1 : F
  n2 : F

/-- One `containers` update of the n1/n2 loop in prepare_computations:
remove the first structurally equal occupant, or push at the end. -/
def toggleContainer (containers : List Shape) (o : Shape) : List Shape :=
  match containers.findIdx? (fun c => shapeEq c o) with
  | some idx => containers.eraseIdx idx
  | none => containers.concat o

/-- The n1/n2 walk of prepare_computations over the given intersection
list: at the first element equal to self, n1 is read from the top of the
containment stack before toggling, n2 after toggling, and the loop breaks. -/
def n1n2Loop (self : Inter) : List Inter → List Shape → F → F → F × F
  | [], _, n1, n2 => (n1, n2)
  | i :: rest, containers, n1, n2 =>
      let isSelf := interEq i self
      let n1 :=
        if isSelf then
          match containers.getLast? with
          | some o => o.props.material.refractive_index
          | none => n1
        else n1
      let containers := toggleContainer containers i.object
      if isSelf then
        (n1,
          match containers.getLast? with
          | some o => o.props.material.refractive_index
          | none => n2)
      else n1n2Loop self rest containers n1 n2

/-- intersection.rs `Intersection::prepare_computations`. -/
def prepareComputations (self : Inter) (r : Ray) (intersections : List Inter) : Comps :=
  let t := self.t
  let object := self.object
  let point := r.position t
  let eyev := -r.direction
  let normalv0 := object.normalAt point
  let inside := normalv0.dot eyev < 0
  let normalv := if inside then -normalv0 else normalv0
  let overPoint := point + normalv * EPSILON
  let underPoint := point - normalv * EPSILON
  let reflectv := r.direction.reflect normalv
  let n := n1n2Loop self intersections [] 1 1
  { t := t, object := object, point := point, over_point := overPoint,
    under_point := underPoint, eyev := eyev, normalv := normalv,
    inside := inside, reflectv := reflectv, n1 := n.1, n2 := n.2 }

/-- intersection.rs `Comps::schlick`. -/
def Comps.schlick (c : Comps) : F :=
  let cos := c.eyev.dot c.normalv
  if c.n1 > c.n2 then
    let n := c.n1 / c.n2
    let sin2T := n ^ 2 * (1 - cos ^ 2)
    if sin2T > 1 then 1
    else
      let cosT := fsqrt (1 - sin2T)
      let r0 := ((c.n1 - c.n2) / (c.n1 + c.n2)) ^ 2
      r0 + (1 - r0) * (1 - cosT) ^ 5
  else
    let r0 := ((c.n1 - c.n2) / (c.n1 + c.n2)) ^ 2
    r0 + (1 - r0) * (1 - cos) ^ 5

/-- Model of `F::powf`, exact on integral exponents (the only shininess
values occurring in the sources are integral). -/
def fpowf (x e : F) : F := if e.den = 1 then x ^ e.num else 0

/-- pattern.rs `Pattern::color_at_object`. -/
def Pattern.colorAtObject (p : Pattern) (object : Shape) (worldPoint : Tuple) : Color :=
  let objectPoint := mulT (inverse4 object.props.transform) worldPoint
  let patternPoint := mulT (inverse4 p.transform) objectPoint
  p.colorAt patternPoint

/-- material.rs `Material::lighting`. -/
def Material.lighting (m : Material) (object : Shape) (light : PointLight)
    (point eyev normalv : Tuple) (inShadow : Bool) : Color :=
  let color :=
    match m.pattern with
    | some p => p.colorAtObject object point
    | none => m.color
  let effectiveColor := color * light.intensity
  let lightv := (light.position - point).normalize
  let ambientLight := effectiveColor * m.ambient
  if inShadow then ambientLight
  else
    let lightDotNormal := lightv.dot normalv
    if lightDotNormal < 0 then ambientLight + BLACK + BLACK
    else
      let diffuseLight := effectiveColor * m.diffuse * lightDotNormal
      let reflectv := (-lightv).reflect normalv
      let reflectDotEye := reflectv.dot eyev
      if reflectDotEye ≤ 0 then ambientLight + diffuseLight + BLACK
      else
        let factor := fpowf reflectDotEye m.shininess
        ambientLight + diffuseLight + light.intensity * m.specular * factor

/-- world.rs `World`. -/
structure World where
  objects : List Shape
  lights : List PointLight

/-- world.rs `World::intersect`: the flat concatenation, in object order,
of the intersections of every shape. No sorting happens here. -/
def World.intersect (w : World) (r : Ray) : List Inter :=
  w.objects.flatMap (fun o => o.intersect r)

/-- world.rs `World::is_shadowed`. -/
def World.isShadowed (w : World) (light : PointLight) (point : Tuple) : Bool :=
  let v := light.position - point
  let distance := v.magnitude
  let direction := v.normalize
  let r : Ray := ⟨point, direction⟩
  match hit (w.intersect r) with
  | some h => decide (h.t < distance)
  | none => false

mutual

/-- world.rs `World::color_at`: nearest hit or background, building Comps
from the full (unsorted) intersection list. -/
def World.colorAt (w : World) (r : Ray) (remaining : Nat) : Color :=
  let xs := w.intersect r
  match hit xs with
  | none => BLACK
  | some h => w.shadeHit (prepareComputations h r xs) remaining
termination_by (remaining, 2)

/-- world.rs `World::shade_hit`. -/
def World.shadeHit (w : World) (comps : Comps) (remaining : Nat) : Color :=
  let surface :=
    sumColors (w.lights.map (fun l =>
      comps.object.props.material.lighting comps.object l comps.point comps.eyev
        comps.normalv (w.isShadowed l comps.over_point)))
  let reflected := w.reflectedColor comps remaining
  let refracted := w.refractedColor comps remaining
  let material := comps.object.props.material
  if material.reflective > 0 ∧ material.transparency > 0 then
    let reflectance := comps.schlick
    surface + reflected * reflectance + refracted * (1 - reflectance)
  else
    surface + reflected + refracted
termination_by (remaining, 1)

/-- world.rs `World::reflected_color`: black when the material is not
reflective or the depth budget is exhausted, otherwise recurse with
remaining - 1. -/
def World.reflectedColor (w : World) (comps : Comps) (remaining : Nat) : Color :=
  if comps.object.props.material.reflective = 0 then BLACK
  else
    match remaining with
    | 0 => BLACK
    | d + 1 =>
        let reflectRay : Ray := ⟨comps.over_point, comps.reflectv⟩
        (w.colorAt reflectRay d) * comps.object.props.material.reflective
termination_by (remaining, 0)

/-- world.rs `World::refracted_color`: black when the material is opaque,
the depth budget is exhausted, or under total internal reflection;
otherwise recurse with remaining - 1 along the Snell-refracted ray. -/
def World.refractedColor (w : World) (comps : Comps) (remaining : Nat) : Color :=
  if comps.object.props.material.transparency = 0 then BLACK
  else
    match remaining with
    | 0 => BLACK
    | d + 1 =>
        let nRatio := comps.n1 / comps.n2
        let cosI := comps.eyev.dot comps.normalv
        let sin2T := nRatio ^ 2 * (1 - cosI ^ 2)
        if sin2T > 1 then BLACK
        else
          let cosT := fsqrt (1 - sin2T)
          let direction := comps.normalv * (nRatio * cosI - cosT) - comps.eyev * nRatio
          let refractRay : Ray := ⟨comps.under_point, direction⟩
          (w.colorAt refractRay d) * comps.object.props.material.transparency
termination_by (remaining, 0)

end

mutual

/-- Instrumentation of the recursion of color_at / shade_hit /
reflected_color / refracted_color: the number of color_at invocations
performed, following exactly the control flow of the source (same guards,
same depth bookkeeping), with the color arithmetic dropped. -/
def World.colorAtCalls (w : World) (r : Ray) (remaining : Nat) : Nat :=
  let xs := w.intersect r
  match hit xs with
  | none => 1
  | some h => 1 + w.shadeHitCalls (prepareComputations h r xs) remaining
termination_by (remaining, 2)

/-- color_at invocations performed inside shade_hit: those of
reflected_color plus those of refracted_color. -/
def World.shadeHitCalls (w : World) (comps : Comps) (remaining : Nat) : Nat :=
  w.reflectedColorCalls comps remaining + w.refractedColorCalls comps remaining
termination_by (remaining, 1)

/-- color_at invocations performed by reflected_color: none on either
early return, otherwise those of the recursive call at remaining - 1. -/
def World.reflectedColorCalls (w : World) (comps : Comps) (remaining : Nat) : Nat :=
  if comps.object.props.material.reflective = 0 then 0
  else
    match remaining with
    | 0 => 0
    | d + 1 =>
        let reflectRay : Ray := ⟨comps.over_point, comps.reflectv⟩
        w.colorAtCalls reflectRay d
termination_by (remaining, 0)

/-- color_at invocations performed by refracted_color. -/
def World.refractedColorCalls (w : World) (comps : Comps) (remaining : Nat) : Nat :=
  if comps.object.props.material.transparency = 0 then 0
  else
    match remaining with
    | 0 => 0
    | d + 1 =>
        let nRatio := comps.n1 / comps.n2
        let cosI := comps.eyev.dot comps.normalv
        let sin2T := nRatio ^ 2 * (1 - cosI ^ 2)
        if sin2T > 1 then 0
        else
          let cosT := fsqrt (1 - sin2T)
          let direction := comps.normalv * (nRatio * cosI - cosT) - comps.eyev * nRatio
          let refractRay : Ray := ⟨comps.under_point, direction⟩
          w.colorAtCalls refractRay d
termination_by (remaining, 0)

end

/-- Material of the outer sphere of the default world:
`Material::default().rgb(0.8, 1.0, 0.6).diffuse(0.7).specular(0.2)`. -/
def defaultWorldS1Material : Material :=
  { defaultMaterial with
      color := ⟨8/10, 1, 6/10⟩
      diffuse := 7/10
      specular := 2/10 }

/-- world.rs `Default for World`: the standard two-sphere scene. -/
def defaultWorld : World :=
  let s1 : Shape := ⟨.sphere, ⟨defaultWorldS1Material, identity4⟩⟩
  let s2 : Shape := ⟨.sphere, ⟨defaultMaterial, scaling4 (1/2) (1/2) (1/2)⟩⟩
  let light : PointLight := ⟨pt3 (-10) 10 (-10), WHITE⟩
  { objects := [s1, s2], lights := [light] }

/-- sphere.rs `glass()`: a unit sphere with transparency 1 and refractive
index 1.5. -/
def glassMaterial : Material :=
  { defaultMaterial with
      transparency := 1
      refractive_index := 3/2 }

def glassSphere : Shape := ⟨.sphere, ⟨glassMaterial, identity4⟩⟩

/- Concrete scenes used by the theorems below. -/

/-- Outer concentric glass sphere: radius 2 via scaling, refractive index 1.5. -/
def concentricOuter : Shape := ⟨.sphere, ⟨glassMaterial, scaling4 2 2 2⟩⟩

/-- Inner concentric glass sphere: unit radius, refractive index 2.0. -/
def concentricInner : Shape :=
  ⟨.sphere, ⟨{ glassMaterial with refractive_index := 2 }, identity4⟩⟩

/-- A ray cast along the z axis through both concentric spheres. -/
def concentricRay : Ray := ⟨pt3 0 0 (-4), vec3 0 0 1⟩

/-- The ascending-sorted intersection set of the concentric-spheres scene. -/
def concentricXs : List Inter :=
  [⟨2, concentricOuter⟩, ⟨3, concentricInner⟩, ⟨5, concentricInner⟩, ⟨6, concentricOuter⟩]

/-- The canonical axis ray from (0,0,-5) toward +z. -/
def axisRay : Ray := ⟨pt3 0 0 (-5), vec3 0 0 1⟩

/-- A second glass shape overlapping the outer sphere, entered by a ray
that starts inside the first: shows the consequence of the unsorted walk. -/
def nestedB : Shape :=
  ⟨.sphere, ⟨{ glassMaterial with refractive_index := 2 }, translation4 0 0 (3/2)⟩⟩

def nestedWorld : World := ⟨[concentricOuter, nestedB], [⟨pt3 0 0 (-10), WHITE⟩]⟩

def originRay : Ray := ⟨pt3 0 0 0, vec3 0 0 1⟩

/-- The same intersections as `nestedWorld.intersect originRay`, ascending by t. -/
def nestedSortedXs : List Inter :=
  [⟨-2, concentricOuter⟩, ⟨1/2, nestedB⟩, ⟨2, concentricOuter⟩, ⟨5/2, nestedB⟩]

/-- Ray at the origin pointing up, exiting the glass sphere at its north pole. -/
def perpendicularRay : Ray := ⟨pt3 0 0 0, vec3 0 1 0⟩

def glassExitXs : List Inter := [⟨-1, glassSphere⟩, ⟨1, glassSphere⟩]

/-- Comps of the book scenario for the perpendicular Schlick value: the
hit where the ray leaves glass (n1 = 1.5) into air (n2 = 1). -/
def glassExitComps : Comps :=
  prepareComputations ⟨1, glassSphere⟩ perpendicularRay glassExitXs

/-- A glass sphere overlapping `glassSphere`, with the same refractive index. -/
def overlapB : Shape := ⟨.sphere, ⟨glassMaterial, translation4 0 0 1⟩⟩

def overlapXs : List Inter :=
  [⟨4, glassSphere⟩, ⟨5, overlapB⟩, ⟨6, glassSphere⟩, ⟨7, overlapB⟩]

/-- Comps at a hit with matched dielectrics on both sides
(n1 = n2 = 1.5) and perpendicular viewing angle. -/
def matchedComps : Comps := prepareComputations ⟨5, overlapB⟩ axisRay overlapXs

/-- A Comps exhibiting total internal reflection: leaving glass (n1 = 1.5)
into air at a grazing angle (eye perpendicular to the normal). -/
def tirComps : Comps :=
  { t := 1, object := glassSphere, point := pt3 0 0 0, over_point := pt3 0 0 0,
    under_point := pt3 0 0 0, eyev := vec3 1 0 0, normalv := vec3 0 0 (-1),
    inside := false, reflectv := vec3 0 0 0, n1 := 3/2, n2 := 1 }

/-- A world whose only shape is fully transparent glass, with a light such
that the occluder sits between the light and the probe point. -/
def glassShadowWorld : World := ⟨[glassSphere], [⟨pt3 0 0 (-10), WHITE⟩]⟩

def shadowLight : PointLight := ⟨pt3 0 0 (-10), WHITE⟩

/-- Replace every material of the world, leaving geometry (kind and
transform) untouched. Used to state that the shadow test never consults
the material. -/
def mapMaterials (f : Material → Material) (w : World) : World :=
  { objects := w.objects.map (fun s => ⟨s.kind, ⟨f s.props.material, s.props.transform⟩⟩),
    lights := w.lights }

/-- A half-mirror material used to witness the depth bookkeeping of the
reflected recursion. -/
def mirrorMaterial : Material := { defaultMaterial with reflective := 1/2 }

/-- A concrete Comps over a reflective floor plane. -/
def mirrorComps : Comps :=
  { t := 1, object := ⟨.plane, ⟨mirrorMaterial, identity4⟩⟩, point := pt3 0 0 0,
    over_point := pt3 0 EPSILON 0, under_point := pt3 0 (-EPSILON) 0,
    eyev := vec3 0 1 0, normalv := vec3 0 1 0, inside := false,
    reflectv := vec3 0 1 0, n1 := 1, n2 := 1 }

/-- The t-values 5, 7, -3, 2 of the hit() acceptance test. -/
def hitWitnessXs : List Inter :=
  [⟨5, glassSphere⟩, ⟨7, glassSphere⟩, ⟨-3, glassSphere⟩, ⟨2, glassSphere⟩]

/-- Two intersections sharing the minimal non-negative t, from distinct
shapes, behind one negative intersection. -/
def tieXs : List Inter := [⟨-1, glassSphere⟩, ⟨2, glassSphere⟩, ⟨2, overlapB⟩]

/-- The tangent ray of the sphere acceptance test: origin (0,1,-5),
direction (0,0,1), grazing the unit sphere at y = 1. -/
def tangentRay : Ray := ⟨pt3 0 1 (-5), vec3 0 0 1⟩

/- Theorems. -/

/-- C6: reflected_color and refracted_color return exactly black at depth
budget 0 for every world and Comps, independent of the material
coefficients; and each returns black at every depth when its relevant
material coefficient (reflective, respectively transparency) is zero. -/
theorem reflected_refracted_black_on_guards (w : World) (comps : Comps) :
    w.reflectedColor comps 0 = BLACK ∧
    w.refractedColor comps 0 = BLACK ∧
    (comps.object.props.material.reflective = 0 →
      ∀ d : Nat, w.reflectedColor comps d = BLACK) ∧
    (comps.object.props.material.transparency = 0 →
      ∀ d : Nat, w.refractedColor comps d = BLACK) := by
  refine ⟨?_, ?_, ?_, ?_⟩
  · rw [World.reflectedColor.eq_def]
    split <;> rfl
  · rw [World.refractedColor.eq_def]
    split <;> rfl
  · intro h d
    rw [World.reflectedColor.eq_def]
    simp [h]
  · intro h d
    rw [World.refractedColor.eq_def]
    simp [h]

/-- C6 witness: at the default world and the Comps of the first hit of the
axis ray, both functions return black at depth 0, and the default material
has both coefficients zero, so both functions return black at depth 7. -/
theorem reflected_refracted_black_on_guards_witness :
    defaultWorld.reflectedColor (prepareComputations ⟨4, ⟨.sphere, ⟨defaultWorldS1Material, identity4⟩⟩⟩
      axisRay []) 0 = BLACK ∧
    defaultWorld.refractedColor (prepareComputations ⟨4, ⟨.sphere, ⟨defaultWorldS1Material, identity4⟩⟩⟩
      axisRay []) 7 = BLACK := by
  have h := reflected_refracted_black_on_guards defaultWorld
    (prepareComputations ⟨4, ⟨.sphere, ⟨defaultWorldS1Material, identity4⟩⟩⟩ axisRay [])
  exact ⟨h.1, h.2.2.2 (of_decide_eq_true (by with_unfolding_all rfl)) 7⟩

/-- C2: in the concentric glass-spheres scene (outer radius 2 with index
1.5, inner radius 1 with index 2.0), the ray along z produces hits 2 and 6
on the outer sphere and 3 and 5 on the inner one; the ascending-sorted
set of these four hits, run through prepare_computations hit by hit,
yields exactly the (n1, n2) pairs (1, 1.5), (1.5, 2), (2, 1.5), (1.5, 1). -/
theorem concentric_spheres_n1_n2 :
    (concentricOuter.intersect concentricRay).map Inter.t = [2, 6] ∧
    (concentricInner.intersect concentricRay).map Inter.t = [3, 5] ∧
    (concentricOuter.intersect concentricRay ++
      concentricInner.intersect concentricRay).Perm concentricXs ∧
    List.Sorted (· ≤ ·) (concentricXs.map Inter.t) ∧
    concentricXs.map (fun i =>
        ((prepareComputations i concentricRay concentricXs).n1,
         (prepareComputations i concentricRay concentricXs).n2)) =
      [(1, 3/2), (3/2, 2), (2, 3/2), (3/2, 1)] :=
  of_decide_eq_true (by with_unfolding_all rfl)

/-- C3 (falsified by the code): the intersection list that color_at builds
and hands to prepare_computations is World::intersect output, which is the
unsorted per-shape concatenation. On the default world and the axis ray it
is [4, 6, 4.5, 5.5], not ascending; and in a scene of two overlapping
glass shapes the unsorted walk returns n1 = 1 at a hit where the
ascending-sorted walk returns n1 = 1.5. -/
theorem color_at_passes_unsorted_intersections :
    (defaultWorld.intersect axisRay).map Inter.t = [4, 6, 9/2, 11/2] ∧
    ¬ List.Sorted (· ≤ ·) ((defaultWorld.intersect axisRay).map Inter.t) ∧
    (nestedWorld.intersect originRay).map Inter.t = [-2, 2, 1/2, 5/2] ∧
    (nestedSortedXs.map Inter.t).Perm ((nestedWorld.intersect originRay).map Inter.t) ∧
    List.Sorted (· ≤ ·) (nestedSortedXs.map Inter.t) ∧
    (hit (nestedWorld.intersect originRay)).map Inter.t = some (1/2) ∧
    (prepareComputations ⟨1/2, nestedB⟩ originRay (nestedWorld.intersect originRay)).n1 = 1 ∧
    (prepareComputations ⟨1/2, nestedB⟩ originRay nestedSortedXs).n1 = 3/2 :=
  of_decide_eq_true (by with_unfolding_all rfl)

/-- C5 counterexample: at a hit with matched dielectrics on both sides
(n1 = n2 = 1.5, arising from two overlapping glass spheres) and a
perpendicular viewing angle (eye-normal cosine 1), schlick returns
exactly 0 — not approximately 0.04 (approximate equality in this
codebase means a 1e-5 tolerance). -/
theorem schlick_matched_dielectrics_gives_zero :
    matchedComps.n1 = 3/2 ∧ matchedComps.n2 = 3/2 ∧
    matchedComps.eyev.dot matchedComps.normalv = 1 ∧
    matchedComps.schlick = 0 ∧
    ¬ |matchedComps.schlick - 4/100| < EPSILON :=
  of_decide_eq_true (by with_unfolding_all rfl)

set_option maxRecDepth 4000 in
/-- C5 (amended): schlick returns exactly 1 whenever total internal
reflection is detected (sin2_t > 1, possible only when n1 > n2 for
positive indices and an eye-normal cosine of magnitude at most 1);
otherwise it computes the Fresnel approximation r0 + (1-r0)(1-cos)^5;
and at a perpendicular viewing angle leaving glass into air
(n1 = 1.5, n2 = 1.0 — not n1 = n2 = 1.5) it returns exactly 0.04. -/
theorem schlick_tir_and_perpendicular (c : Comps) :
    (c.n1 > c.n2 →
      (c.n1 / c.n2) ^ 2 * (1 - (c.eyev.dot c.normalv) ^ 2) > 1 → c.schlick = 1) ∧
    (0 < c.n1 → c.n1 ≤ c.n2 → (c.eyev.dot c.normalv) ^ 2 ≤ 1 →
      (c.n1 / c.n2) ^ 2 * (1 - (c.eyev.dot c.normalv) ^ 2) ≤ 1) ∧
    (¬ c.n1 > c.n2 →
      c.schlick = ((c.n1 - c.n2) / (c.n1 + c.n2)) ^ 2 +
        (1 - ((c.n1 - c.n2) / (c.n1 + c.n2)) ^ 2) *
          (1 - c.eyev.dot c.normalv) ^ 5) ∧
    glassExitComps.n1 = 3/2 ∧ glassExitComps.n2 = 1 ∧
    glassExitComps.schlick = 1/25 := by
  refine ⟨?_, ?_, ?_, ?_, ?_, ?_⟩
  · intro h1 h2
    simp only [Comps.schlick]
    rw [if_pos h1, if_pos h2]
  · intro hpos hle hcos
    have hn2 : 0 < c.n2 := lt_of_lt_of_le hpos hle
    have hr : c.n1 / c.n2 ≤ 1 := (div_le_one hn2).mpr hle
    have hr0 : 0 ≤ c.n1 / c.n2 := div_nonneg (le_of_lt hpos) (le_of_lt hn2)
    nlinarith [sq_nonneg (c.eyev.dot c.normalv), sq_nonneg (c.n1 / c.n2)]
  · intro h
    simp only [Comps.schlick]
    rw [if_neg h]
  · exact of_decide_eq_true (by with_unfolding_all rfl)
  · exact of_decide_eq_true (by with_unfolding_all rfl)
  · exact of_decide_eq_true (by with_unfolding_all rfl)

/-- C5 witness: a concrete total-internal-reflection configuration
(n1 = 1.5 to n2 = 1, eye perpendicular to the normal, sin2_t = 9/4)
where schlick returns exactly 1. -/
theorem schlick_tir_and_perpendicular_witness : tirComps.schlick = 1 :=
  (schlick_tir_and_perpendicular tirComps).1
    (of_decide_eq_true (by with_unfolding_all rfl))
    (of_decide_eq_true (by with_unfolding_all rfl))

/-- Applying identity4 at concrete indices yields the Kronecker delta. -/
theorem identity4_apply (r c : Fin 4) : identity4 r c = if r = c then 1 else 0 := by
  fin_cases r <;> fin_cases c <;> with_unfolding_all rfl

set_option maxHeartbeats 1000000 in
/-- Cofactor expansion: expanding row r of m against the cofactors of row
c yields the determinant when r = c and 0 otherwise (duplicate rows). -/
theorem cofactor_row_expansion (m : Matrix4) (r c : Fin 4) :
    m r 0 * cofactor4 m c 0 + m r 1 * cofactor4 m c 1 +
      m r 2 * cofactor4 m c 2 + m r 3 * cofactor4 m c 3 =
    if r = c then det4 m else 0 := by
  have h3 : ((3 : Fin 4) : Nat) = 3 := rfl
  fin_cases r <;> fin_cases c <;>
    simp [det4, cofactor4, minor4, det3, cofactor3, minor3, det2,
      submatrix4, submatrix3, skip4, skip3, h3] <;> ring

/-- C8: inverse() fails fast (the modelled assertion returns none)
exactly when the determinant is zero; otherwise it returns precisely the
transposed-cofactor matrix divided by the determinant, and that result is
a true inverse (its product with m is the identity), never a degraded
value. -/
theorem inverse_fails_iff_det_zero (m : Matrix4) :
    (inverse4? m = none ↔ det4 m = 0) ∧
    (det4 m ≠ 0 → inverse4? m = some (fun r c => cofactor4 m c r / det4 m)) ∧
    (det4 m ≠ 0 → mul4 m (inverse4 m) = identity4) := by
  refine ⟨⟨?_, ?_⟩, ?_, ?_⟩
  · intro h
    by_contra hd
    simp [inverse4?, isInvertible4, hd] at h
  · intro h
    simp [inverse4?, isInvertible4, h]
  · intro h
    simp [inverse4?, isInvertible4, h]
  · intro h
    funext r c
    have hinv : inverse4 m = fun rr cc => cofactor4 m cc rr / det4 m := by
      simp [inverse4, inverse4?, isInvertible4, h]
    rw [hinv]
    show m r 0 * (cofactor4 m c 0 / det4 m) + m r 1 * (cofactor4 m c 1 / det4 m) +
        m r 2 * (cofactor4 m c 2 / det4 m) + m r 3 * (cofactor4 m c 3 / det4 m) =
      identity4 r c
    have hsum : m r 0 * (cofactor4 m c 0 / det4 m) + m r 1 * (cofactor4 m c 1 / det4 m) +
        m r 2 * (cofactor4 m c 2 / det4 m) + m r 3 * (cofactor4 m c 3 / det4 m) =
        (m r 0 * cofactor4 m c 0 + m r 1 * cofactor4 m c 1 +
          m r 2 * cofactor4 m c 2 + m r 3 * cofactor4 m c 3) / det4 m := by
      ring
    rw [hsum, cofactor_row_expansion m r c, identity4_apply]
    split
    · exact div_self h
    · exact zero_div _

/-- C8 witness: a concrete invertible transform (translation by
(5, -3, 2)) where inverse4? succeeds with the cofactor formula and the
product with the original matrix is the identity. -/
theorem inverse_fails_iff_det_zero_witness :
    inverse4? (translation4 5 (-3) 2) =
      some (fun r c =>
        cofactor4 (translation4 5 (-3) 2) c r / det4 (translation4 5 (-3) 2)) ∧
    mul4 (translation4 5 (-3) 2) (inverse4 (translation4 5 (-3) 2)) = identity4 := by
  have h := inverse_fails_iff_det_zero (translation4 5 (-3) 2)
  have hd : det4 (translation4 5 (-3) 2) ≠ 0 :=
    of_decide_eq_true (by with_unfolding_all rfl)
  exact ⟨h.2.1 hd, h.2.2 hd⟩

/-- Folding minStep from a some-accumulator either keeps the accumulator
(when it is minimal) or lands on the first strictly smaller element. -/
theorem foldl_minStep_first (xs : List Inter) : ∀ (m : Inter),
    (xs.foldl minStep (some m) = some m ∧ ∀ j ∈ xs, m.t ≤ j.t) ∨
    (∃ m' pre post, xs.foldl minStep (some m) = some m' ∧ xs = pre ++ m' :: post ∧
      m'.t < m.t ∧ (∀ j ∈ pre, m'.t < j.t) ∧ (∀ j ∈ post, m'.t ≤ j.t)) := by
  induction xs with
  | nil =>
    intro m
    left
    exact ⟨rfl, by simp⟩
  | cons i xs ih =>
    intro m
    have hstep : (i :: xs).foldl minStep (some m) = xs.foldl minStep (minStep (some m) i) := rfl
    by_cases hi : i.t < m.t
    · have hacc : minStep (some m) i = some i := by simp [minStep, hi]
      rcases ih i with ⟨heq, hall⟩ | ⟨m', pre, post, heq, hdec, hlt, hpre, hpost⟩
      · right
        refine ⟨i, [], xs, ?_, by simp, hi, by simp, hall⟩
        rw [hstep, hacc]
        exact heq
      · right
        refine ⟨m', i :: pre, post, ?_, by simp [hdec], lt_trans hlt hi, ?_, hpost⟩
        · rw [hstep, hacc]
          exact heq
        · intro j hj
          rcases List.mem_cons.mp hj with h | h
          · rw [h]
            exact hlt
          · exact hpre j h
    · have hacc : minStep (some m) i = some m := by simp [minStep, hi]
      have hmi : m.t ≤ i.t := le_of_not_lt hi
      rcases ih m with ⟨heq, hall⟩ | ⟨m', pre, post, heq, hdec, hlt, hpre, hpost⟩
      · left
        constructor
        · rw [hstep, hacc]
          exact heq
        · intro j hj
          rcases List.mem_cons.mp hj with h | h
          · rw [h]
            exact hmi
          · exact hall j h
      · right
        refine ⟨m', i :: pre, post, ?_, by simp [hdec], hlt, ?_, hpost⟩
        · rw [hstep, hacc]
          exact heq
        · intro j hj
          rcases List.mem_cons.mp hj with h | h
          · rw [h]
            exact lt_of_lt_of_le hlt hmi
          · exact hpre j h

/-- The min_by fold returns a minimal element, and the first one among
those attaining the minimum. -/
theorem rustMinBy_spec (xs : List Inter) (i : Inter) (h : rustMinBy xs = some i) :
    (∀ j ∈ xs, i.t ≤ j.t) ∧
    ∃ pre post, xs = pre ++ i :: post ∧ ∀ j ∈ pre, i.t < j.t := by
  cases xs with
  | nil => exact absurd h (by simp [rustMinBy])
  | cons y rest =>
    have hfold : rustMinBy (y :: rest) = rest.foldl minStep (some y) := rfl
    rw [hfold] at h
    rcases foldl_minStep_first rest y with ⟨heq, hall⟩ | ⟨m', pre, post, heq, hdec, hlt, hpre, hpost⟩
    · rw [heq] at h
      injection h with h'
      subst h'
      constructor
      · intro j hj
        rcases List.mem_cons.mp hj with hh | hh
        · rw [hh]
        · exact hall j hh
      · exact ⟨[], rest, by simp, by simp⟩
    · rw [heq] at h
      injection h with h'
      subst h'
      constructor
      · intro j hj
        rcases List.mem_cons.mp hj with hh | hh
        · rw [hh]
          exact le_of_lt hlt
        · rw [hdec] at hh
          rcases List.mem_append.mp hh with hh | hh
          · exact le_of_lt (hpre j hh)
          · rcases List.mem_cons.mp hh with hh | hh
            · rw [hh]
            · exact hpost j hh
      · refine ⟨y :: pre, post, by simp [hdec], ?_⟩
        intro j hj
        rcases List.mem_cons.mp hj with hh | hh
        · rw [hh]
          exact hlt
        · exact hpre j hh

/-- Pulling a decomposition of a filtered list back to the original list. -/
theorem filter_decomp (p : Inter → Bool) : ∀ (xs pre' post' : List Inter) (r : Inter),
    xs.filter p = pre' ++ r :: post' →
    ∃ pre post, xs = pre ++ r :: post ∧ pre.filter p = pre' ∧ post.filter p = post' := by
  intro xs
  induction xs with
  | nil =>
    intro pre' post' r h
    simp at h
  | cons x xs ih =>
    intro pre' post' r h
    by_cases hp : p x
    · rw [List.filter_cons_of_pos hp] at h
      cases pre' with
      | nil =>
        simp only [List.nil_append, List.cons.injEq] at h
        obtain ⟨hxr, hrest⟩ := h
        exact ⟨[], xs, by simp [hxr], by simp, hrest⟩
      | cons y pre2 =>
        simp only [List.cons_append, List.cons.injEq] at h
        obtain ⟨hxy, hrest⟩ := h
        obtain ⟨pre, post, hxs, hpre, hpost⟩ := ih pre2 post' r hrest
        refine ⟨x :: pre, post, by simp [hxs], ?_, hpost⟩
        rw [List.filter_cons_of_pos hp, hpre, hxy]
    · rw [List.filter_cons_of_neg hp] at h
      obtain ⟨pre, post, hxs, hpre, hpost⟩ := ih pre' post' r h
      refine ⟨x :: pre, post, by simp [hxs], ?_, hpost⟩
      rw [List.filter_cons_of_neg hp, hpre]

/-- Full characterization of a successful hit(): non-negative, minimal
among the non-negative, and first in input order among equal minima. -/
theorem hit_some_spec (xs : List Inter) (i : Inter) (h : hit xs = some i) :
    0 ≤ i.t ∧ i ∈ xs ∧ (∀ j ∈ xs, 0 ≤ j.t → i.t ≤ j.t) ∧
    ∃ pre post, xs = pre ++ i :: post ∧ ∀ j ∈ pre, j.t < 0 ∨ i.t < j.t := by
  have h' : rustMinBy (xs.filter (fun j => decide (0 ≤ j.t))) = some i := h
  obtain ⟨hall, pre', post', hdec', hpre'⟩ := rustMinBy_spec _ i h'
  have hif : i ∈ xs.filter (fun j => decide (0 ≤ j.t)) := by
    rw [hdec']
    simp
  have hit0 : 0 ≤ i.t := by simpa using List.of_mem_filter hif
  have hixs : i ∈ xs := List.mem_of_mem_filter hif
  obtain ⟨pre, post, hxs, hpre, hpost⟩ := filter_decomp _ xs pre' post' i hdec'
  refine ⟨hit0, hixs, ?_, pre, post, hxs, ?_⟩
  · intro j hj hj0
    exact hall j (List.mem_filter.mpr ⟨hj, by simpa⟩)
  · intro j hj
    by_cases hj0 : (0 : F) ≤ j.t
    · right
      have hjf : j ∈ pre.filter (fun j => decide (0 ≤ j.t)) :=
        List.mem_filter.mpr ⟨hj, by simpa⟩
      rw [hpre] at hjf
      exact hpre' j hjf
    · left
      exact lt_of_not_ge hj0

/-- rustMinBy returns none exactly on the empty list. -/
theorem rustMinBy_eq_none_iff (xs : List Inter) : rustMinBy xs = none ↔ xs = [] := by
  constructor
  · intro h
    cases xs with
    | nil => rfl
    | cons y rest =>
      have hfold : rustMinBy (y :: rest) = rest.foldl minStep (some y) := rfl
      rcases foldl_minStep_first rest y with ⟨heq, _⟩ | ⟨m', _, _, heq, _, _, _, _⟩ <;>
        rw [hfold, heq] at h <;> exact Option.noConfusion h
  · intro h
    rw [h]
    rfl

/-- hit() returns none exactly when every t is negative. -/
theorem hit_none_iff (xs : List Inter) : hit xs = none ↔ ∀ j ∈ xs, j.t < 0 := by
  have hdef : hit xs = rustMinBy (xs.filter fun j => decide (0 ≤ j.t)) := rfl
  rw [hdef, rustMinBy_eq_none_iff, List.filter_eq_nil_iff]
  constructor
  · intro h j hj
    have := h j hj
    simpa using this
  · intro h j hj
    simpa using not_le.mpr (h j hj)

/-- C4: hit() returns an intersection with the smallest non-negative t
(and none exactly when all t are negative); in particular over any input
order of the t-values [5, 7, -3, 2] it returns the one with t = 2. -/
theorem hit_smallest_nonneg (xs : List Inter) :
    (∀ i : Inter, hit xs = some i →
      0 ≤ i.t ∧ i ∈ xs ∧ ∀ j ∈ xs, 0 ≤ j.t → i.t ≤ j.t) ∧
    (hit xs = none ↔ ∀ j ∈ xs, j.t < 0) ∧
    ((xs.map Inter.t).Perm [5, 7, -3, 2] → ∃ i, hit xs = some i ∧ i.t = 2) := by
  refine ⟨?_, hit_none_iff xs, ?_⟩
  · intro i h
    obtain ⟨h0, hm, hmin, _⟩ := hit_some_spec xs i h
    exact ⟨h0, hm, hmin⟩
  · intro hperm
    have h2 : (2 : F) ∈ xs.map Inter.t := hperm.mem_iff.mpr (by norm_num)
    obtain ⟨j, hjxs, hjt⟩ := List.mem_map.mp h2
    have hne : ¬ hit xs = none := by
      rw [hit_none_iff]
      intro hneg
      have := hneg j hjxs
      rw [hjt] at this
      norm_num at this
    obtain ⟨i, hi⟩ := Option.ne_none_iff_exists'.mp hne
    obtain ⟨h0, hm, hmin, _⟩ := hit_some_spec xs i hi
    refine ⟨i, hi, ?_⟩
    have hle : i.t ≤ 2 := by
      have := hmin j hjxs (by rw [hjt]; norm_num)
      rwa [hjt] at this
    have hmem : i.t ∈ ([5, 7, -3, 2] : List F) :=
      hperm.mem_iff.mp (List.mem_map_of_mem Inter.t hm)
    simp only [List.mem_cons, List.not_mem_nil, or_false] at hmem
    rcases hmem with h | h | h | h
    · rw [h] at hle
      norm_num at hle
    · rw [h] at hle
      norm_num at hle
    · rw [h] at h0
      norm_num at h0
    · exact h

/-- C4 witness: over the concrete list with t-values [5, 7, -3, 2], hit()
returns the intersection with t = 2. -/
theorem hit_smallest_nonneg_witness :
    ∃ i, hit hitWitnessXs = some i ∧ i.t = 2 :=
  (hit_smallest_nonneg hitWitnessXs).2.2 (of_decide_eq_true (by with_unfolding_all rfl))

/-- C9: when several intersections share the same minimal non-negative t,
hit() returns the first such intersection in input order: everything
earlier in the list is either negative or strictly larger in t. -/
theorem hit_tie_break_first (xs : List Inter) (i : Inter) (h : hit xs = some i) :
    0 ≤ i.t ∧ (∀ j ∈ xs, 0 ≤ j.t → i.t ≤ j.t) ∧
    ∃ pre post, xs = pre ++ i :: post ∧ ∀ j ∈ pre, j.t < 0 ∨ i.t < j.t := by
  obtain ⟨h0, _, hmin, hdec⟩ := hit_some_spec xs i h
  exact ⟨h0, hmin, hdec⟩

/-- C9 witness: a tie at t = 2 between two distinct shapes is resolved in
favor of the earlier one in input order. -/
theorem hit_tie_break_first_witness :
    hit tieXs = some ⟨2, glassSphere⟩ ∧
    ∃ pre post, tieXs = pre ++ (⟨2, glassSphere⟩ : Inter) :: post ∧
      ∀ j ∈ pre, j.t < 0 ∨ (2 : F) < j.t := by
  have hh : hit tieXs = some ⟨2, glassSphere⟩ := of_decide_eq_true (by with_unfolding_all rfl)
  exact ⟨hh, (hit_tie_break_first tieXs ⟨2, glassSphere⟩ hh).2.2⟩

/-- Replacing the material of a shape leaves the t-values of its
local intersections unchanged: the two local hooks read only the kind
and the ray. -/
theorem localIntersect_material_t (f : Material → Material) (s : Shape) (r : Ray) :
    ((Shape.mk s.kind ⟨f s.props.material, s.props.transform⟩).localIntersect r).map Inter.t =
    (s.localIntersect r).map Inter.t := by
  obtain ⟨k, mat, tr⟩ := s
  cases k <;> simp only [Shape.localIntersect] <;> split <;> simp

/-- Replacing all materials of a world leaves the t-values of
World::intersect unchanged. -/
theorem worldIntersect_material_t (f : Material → Material) (w : World) (r : Ray) :
    ((mapMaterials f w).intersect r).map Inter.t = (w.intersect r).map Inter.t := by
  obtain ⟨objects, lights⟩ := w
  induction objects with
  | nil => rfl
  | cons o os ih =>
    simp only [mapMaterials, World.intersect, List.map_cons, List.flatMap_cons,
      List.map_append] at ih ⊢
    rw [ih]
    congr 1
    exact localIntersect_material_t f o (r.transform (inverse4 o.props.transform))

/-- Folding minStep over two lists with identical t-values from
accumulators with identical t-values yields results with identical
t-values. -/
theorem foldl_minStep_t_congr : ∀ (xs ys : List Inter) (acc acc' : Option Inter),
    xs.map Inter.t = ys.map Inter.t →
    Option.map Inter.t acc = Option.map Inter.t acc' →
    Option.map Inter.t (xs.foldl minStep acc) = Option.map Inter.t (ys.foldl minStep acc') := by
  intro xs
  induction xs with
  | nil =>
    intro ys acc acc' hxy hacc
    cases ys with
    | nil => exact hacc
    | cons y ys => simp at hxy
  | cons x xs ih =>
    intro ys acc acc' hxy hacc
    cases ys with
    | nil => simp at hxy
    | cons y ys =>
      simp only [List.map_cons, List.cons.injEq] at hxy
      obtain ⟨hty, hmap⟩ := hxy
      apply ih ys _ _ hmap
      cases acc with
      | none =>
        cases acc' with
        | none => simp [minStep, hty]
        | some m' => simp at hacc
      | some m =>
        cases acc' with
        | none => simp at hacc
        | some m' =>
          have hmt : m.t = m'.t := by simpa using hacc
          show Option.map Inter.t (if x.t < m.t then some x else some m) =
            Option.map Inter.t (if y.t < m'.t then some y else some m')
          by_cases hx : x.t < m.t
          · have hy : y.t < m'.t := by
              rw [← hty, ← hmt]
              exact hx
            rw [if_pos hx, if_pos hy]
            simpa using hty
          · have hy : ¬ y.t < m'.t := by
              rw [← hty, ← hmt]
              exact hx
            rw [if_neg hx, if_neg hy]
            simpa using hmt

/-- Filtering on non-negative t respects t-value equality of lists. -/
theorem filter_nonneg_t_congr : ∀ (xs ys : List Inter), xs.map Inter.t = ys.map Inter.t →
    (xs.filter (fun i => decide (0 ≤ i.t))).map Inter.t =
    (ys.filter (fun i => decide (0 ≤ i.t))).map Inter.t := by
  intro xs
  induction xs with
  | nil =>
    intro ys h
    cases ys with
    | nil => rfl
    | cons y ys => simp at h
  | cons x xs ih =>
    intro ys h
    cases ys with
    | nil => simp at h
    | cons y ys =>
      simp only [List.map_cons, List.cons.injEq] at h
      obtain ⟨hty, hmap⟩ := h
      by_cases h0 : (0 : F) ≤ x.t
      · have h0y : (0 : F) ≤ y.t := hty ▸ h0
        rw [List.filter_cons_of_pos (by simpa using h0),
          List.filter_cons_of_pos (by simpa using h0y)]
        simp only [List.map_cons, hty, ih ys hmap]
      · have h0y : ¬ (0 : F) ≤ y.t := hty ▸ h0
        rw [List.filter_cons_of_neg (by simpa using h0),
          List.filter_cons_of_neg (by simpa using h0y)]
        exact ih ys hmap

/-- hit() depends only on the t-values of its input. -/
theorem hit_t_congr (xs ys : List Inter) (h : xs.map Inter.t = ys.map Inter.t) :
    Option.map Inter.t (hit xs) = Option.map Inter.t (hit ys) :=
  foldl_minStep_t_congr _ _ none none (filter_nonneg_t_congr xs ys h) rfl

set_option maxRecDepth 10000 in
/-- C10: is_shadowed never consults the occluder material: replacing
every material in the world (for instance making every shape fully
transparent) does not change the result; shadowing holds exactly when the
nearest non-negative hit lies strictly closer than the light; and a fully
transparent glass sphere between point and light does shadow the point. -/
theorem is_shadowed_ignores_material :
    (∀ (f : Material → Material) (w : World) (l : PointLight) (p : Tuple),
      (mapMaterials f w).isShadowed l p = w.isShadowed l p) ∧
    (∀ (w : World) (l : PointLight) (p : Tuple),
      w.isShadowed l p = true ↔
        ∃ i, hit (w.intersect ⟨p, (l.position - p).normalize⟩) = some i ∧
          i.t < (l.position - p).magnitude) ∧
    glassShadowWorld.isShadowed shadowLight (pt3 0 0 10) = true ∧
    glassSphere.props.material.transparency = 1 := by
  refine ⟨?_, ?_, ?_, ?_⟩
  · intro f w l p
    have hhit := hit_t_congr _ _ (worldIntersect_material_t f w ⟨p, (l.position - p).normalize⟩)
    simp only [World.isShadowed]
    cases h1 : hit ((mapMaterials f w).intersect ⟨p, (l.position - p).normalize⟩) with
    | none =>
      cases h2 : hit (w.intersect ⟨p, (l.position - p).normalize⟩) with
      | none => rfl
      | some i2 =>
        rw [h1, h2] at hhit
        simp at hhit
    | some i1 =>
      cases h2 : hit (w.intersect ⟨p, (l.position - p).normalize⟩) with
      | none =>
        rw [h1, h2] at hhit
        simp at hhit
      | some i2 =>
        rw [h1, h2] at hhit
        have ht12 : i1.t = i2.t := by simpa using hhit
        simp [ht12]
  · intro w l p
    simp only [World.isShadowed]
    cases h : hit (w.intersect ⟨p, (l.position - p).normalize⟩) with
    | none => simp
    | some i => simp
  · exact of_decide_eq_true (by with_unfolding_all rfl)
  · exact of_decide_eq_true (by with_unfolding_all rfl)

/-- reflected_color spawns no recursion at an exhausted budget. -/
theorem reflectedColorCalls_zero (w : World) (c : Comps) : w.reflectedColorCalls c 0 = 0 := by
  rw [World.reflectedColorCalls.eq_def]
  split <;> rfl

/-- refracted_color spawns no recursion at an exhausted budget. -/
theorem refractedColorCalls_zero (w : World) (c : Comps) : w.refractedColorCalls c 0 = 0 := by
  rw [World.refractedColorCalls.eq_def]
  split <;> rfl

/-- shade_hit spawns no recursion at an exhausted budget. -/
theorem shadeHitCalls_zero (w : World) (c : Comps) : w.shadeHitCalls c 0 = 0 := by
  rw [World.shadeHitCalls.eq_def, reflectedColorCalls_zero, refractedColorCalls_zero]

/-- color_at at budget 0 performs exactly its own invocation. -/
theorem colorAtCalls_zero (w : World) (r : Ray) : w.colorAtCalls r 0 = 1 := by
  simp only [World.colorAtCalls.eq_def]
  cases h : hit (w.intersect r) with
  | none => simp [h]
  | some i => simp [h, shadeHitCalls_zero]

/-- The reflected recursion at budget d + 1 is bounded by any bound on
color_at at budget d. -/
theorem reflectedColorCalls_succ_le (w : World) (c : Comps) (d B : Nat)
    (h : ∀ r : Ray, w.colorAtCalls r d ≤ B) : w.reflectedColorCalls c (d + 1) ≤ B := by
  rw [World.reflectedColorCalls.eq_def]
  split
  · omega
  · exact h _

/-- The refracted recursion at budget d + 1 is bounded by any bound on
color_at at budget d. -/
theorem refractedColorCalls_succ_le (w : World) (c : Comps) (d B : Nat)
    (h : ∀ r : Ray, w.colorAtCalls r d ≤ B) : w.refractedColorCalls c (d + 1) ≤ B := by
  rw [World.refractedColorCalls.eq_def]
  split
  · omega
  · dsimp only
    split
    · omega
    · exact h _

/-- The total number of color_at invocations is bounded in terms of the
initial depth budget alone: the recursion always terminates. -/
theorem colorAtCalls_bound (w : World) : ∀ (d : Nat) (r : Ray),
    w.colorAtCalls r d ≤ 2 ^ (d + 1) - 1 := by
  intro d
  induction d with
  | zero =>
    intro r
    rw [colorAtCalls_zero]
    norm_num
  | succ d ih =>
    intro r
    have hone : 1 ≤ 2 ^ (d + 2) := Nat.one_le_two_pow
    have hpow : 2 ^ (d + 2) = 2 * 2 ^ (d + 1) := by ring
    have hone1 : 1 ≤ 2 ^ (d + 1) := Nat.one_le_two_pow
    simp only [World.colorAtCalls.eq_def]
    cases h : hit (w.intersect r) with
    | none =>
      simp only [h]
      omega
    | some i =>
      simp only [h]
      have h1 := reflectedColorCalls_succ_le w
        (prepareComputations i r (w.intersect r)) d _ ih
      have h2 := refractedColorCalls_succ_le w
        (prepareComputations i r (w.intersect r)) d _ ih
      rw [World.shadeHitCalls.eq_def]
      omega

/-- C1: the light-transport recursion is a strictly decreasing depth
state machine. Secondary rays of reflected_color and refracted_color at
budget d + 1 recurse into color_at at budget d; at budget 0, and when
the ray has no intersection, no recursive call is made; consequently the
total number of color_at invocations from any start is finite, bounded by
2^(d+1) - 1. -/
theorem depth_budget_strictly_decreases (w : World) (r : Ray) (d : Nat) :
    w.colorAtCalls r d ≤ 2 ^ (d + 1) - 1 ∧
    w.colorAtCalls r 0 = 1 ∧
    (hit (w.intersect r) = none → w.colorAtCalls r d = 1) ∧
    (∀ comps : Comps, w.reflectedColorCalls comps 0 = 0 ∧ w.refractedColorCalls comps 0 = 0) ∧
    (∀ comps : Comps, comps.object.props.material.reflective ≠ 0 →
      w.reflectedColor comps (d + 1) =
        w.colorAt ⟨comps.over_point, comps.reflectv⟩ d *
          comps.object.props.material.reflective) ∧
    (∀ comps : Comps, comps.object.props.material.transparency ≠ 0 →
      ¬ (comps.n1 / comps.n2) ^ 2 * (1 - (comps.eyev.dot comps.normalv) ^ 2) > 1 →
      w.refractedColor comps (d + 1) =
        w.colorAt ⟨comps.under_point,
          comps.normalv * ((comps.n1 / comps.n2) * (comps.eyev.dot comps.normalv) -
            fsqrt (1 - (comps.n1 / comps.n2) ^ 2 *
              (1 - (comps.eyev.dot comps.normalv) ^ 2))) -
          comps.eyev * (comps.n1 / comps.n2)⟩ d *
          comps.object.props.material.transparency) := by
  refine ⟨colorAtCalls_bound w d r, colorAtCalls_zero w r, ?_, ?_, ?_, ?_⟩
  · intro h
    simp only [World.colorAtCalls.eq_def]
    simp [h]
  · intro comps
    exact ⟨reflectedColorCalls_zero w comps, refractedColorCalls_zero w comps⟩
  · intro comps h
    rw [World.reflectedColor.eq_def, if_neg h]
  · intro comps h hs
    rw [World.refractedColor.eq_def, if_neg h]
    dsimp only
    rw [if_neg hs]

/-- C1 witness: at the default world, color_at at budget 0 performs a
single invocation, and for a concrete half-mirror Comps the reflected
color at budget 3 is the recursive color_at at budget 2 scaled by the
reflective coefficient. -/
theorem depth_budget_strictly_decreases_witness :
    defaultWorld.colorAtCalls axisRay 0 = 1 ∧
    defaultWorld.reflectedColor mirrorComps 3 =
      defaultWorld.colorAt ⟨mirrorComps.over_point, mirrorComps.reflectv⟩ 2 *
        mirrorComps.object.props.material.reflective := by
  have h := depth_budget_strictly_decreases defaultWorld axisRay 2
  exact ⟨h.2.1, h.2.2.2.2.1 mirrorComps (of_decide_eq_true (by with_unfolding_all rfl))⟩

/-- fsqrt never returns a negative value. -/
theorem fsqrt_nonneg (q : F) : 0 ≤ fsqrt q := by
  unfold fsqrt
  split
  · exact le_refl 0
  · exact div_nonneg (Nat.cast_nonneg _) (Nat.cast_nonneg _)

/-- C7: the sphere local intersection solves the quadratic
a t^2 + b t + c: no roots exactly when the discriminant is negative; at a
tangent (zero discriminant) one root value, listed twice; through the
sphere (positive discriminant, with an exact square root) two distinct
roots, both solving the quadratic. -/
theorem sphere_local_intersect_roots (s : Shape) (hk : s.kind = ShapeKind.sphere) (r : Ray) :
    (s.localIntersect r = [] ↔ sphDisc r < 0) ∧
    (sphDisc r = 0 → 0 < sphA r →
      (s.localIntersect r).map Inter.t =
        [-sphB r / (2 * sphA r), -sphB r / (2 * sphA r)] ∧
      sphA r * (-sphB r / (2 * sphA r)) ^ 2 + sphB r * (-sphB r / (2 * sphA r)) + sphC r = 0) ∧
    (0 < sphDisc r → fsqrt (sphDisc r) ^ 2 = sphDisc r → 0 < sphA r →
      ∃ t1 t2, (s.localIntersect r).map Inter.t = [t1, t2] ∧ t1 < t2 ∧
        sphA r * t1 ^ 2 + sphB r * t1 + sphC r = 0 ∧
        sphA r * t2 ^ 2 + sphB r * t2 + sphC r = 0) := by
  obtain ⟨k, props⟩ := s
  dsimp only at hk
  subst hk
  refine ⟨?_, ?_, ?_⟩
  · constructor
    · intro h
      by_contra hd
      simp [Shape.localIntersect, hd] at h
    · intro h
      simp [Shape.localIntersect, h]
  · intro hd ha
    have hfs : fsqrt (sphDisc r) = 0 := by
      rw [hd]
      exact of_decide_eq_true (by with_unfolding_all rfl)
    have hne : ¬ sphDisc r < 0 := by
      rw [hd]
      norm_num
    have hb2 : sphB r ^ 2 = 4 * sphA r * sphC r := by
      have hdd := hd
      unfold sphDisc at hdd
      linarith
    constructor
    · simp only [Shape.localIntersect, hne, if_false, List.map_cons, List.map_nil, hfs]
      norm_num
    · have ha' : sphA r ≠ 0 := ne_of_gt ha
      field_simp
      linear_combination (-2 * sphA r ^ 2) * hb2
  · intro hd hs ha
    have hne : ¬ sphDisc r < 0 := by linarith
    have ha' : sphA r ≠ 0 := ne_of_gt ha
    have hs0 : 0 < fsqrt (sphDisc r) := by
      rcases lt_or_eq_of_le (fsqrt_nonneg (sphDisc r)) with h | h
      · exact h
      · exfalso
        rw [← h] at hs
        simp at hs
        linarith
    refine ⟨(-sphB r - fsqrt (sphDisc r)) / (2 * sphA r),
            (-sphB r + fsqrt (sphDisc r)) / (2 * sphA r), ?_, ?_, ?_, ?_⟩
    · simp [Shape.localIntersect, hne]
    · apply div_lt_div_of_pos_right ?_ (by linarith)
      linarith
    · have hsd : fsqrt (sphDisc r) ^ 2 = sphB r ^ 2 - 4 * sphA r * sphC r := by
        rw [hs]
        rfl
      field_simp
      linear_combination 2 * sphA r ^ 2 * hsd
    · have hsd : fsqrt (sphDisc r) ^ 2 = sphB r ^ 2 - 4 * sphA r * sphC r := by
        rw [hs]
        rfl
      field_simp
      linear_combination 2 * sphA r ^ 2 * hsd

/-- C7 witness: the tangent ray at y = 1 yields the double root 5; the
axis ray yields two distinct roots of the quadratic. -/
theorem sphere_local_intersect_roots_witness :
    (glassSphere.localIntersect tangentRay).map Inter.t = [5, 5] ∧
    (∃ t1 t2, (glassSphere.localIntersect axisRay).map Inter.t = [t1, t2] ∧ t1 < t2 ∧
      sphA axisRay * t1 ^ 2 + sphB axisRay * t1 + sphC axisRay = 0 ∧
      sphA axisRay * t2 ^ 2 + sphB axisRay * t2 + sphC axisRay = 0) := by
  constructor
  · have h := (sphere_local_intersect_roots glassSphere rfl tangentRay).2.1
      (of_decide_eq_true (by with_unfolding_all rfl))
      (of_decide_eq_true (by with_unfolding_all rfl))
    rw [h.1]
    exact of_decide_eq_true (by with_unfolding_all rfl)
  · exact (sphere_local_intersect_roots glassSphere rfl axisRay).2.2
      (of_decide_eq_true (by with_unfolding_all rfl))
      (of_decide_eq_true (by with_unfolding_all rfl))
      (of_decide_eq_true (by with_unfolding_all rfl))

end RT
